import Mathlib

/-!
Verification development for the mcp-logseq tool handlers.

The embedding covers:

* `formatBlockTree` — a shallow embedding of
  `GetPageContentToolHandler._format_block_tree` (src/mcp_logseq/tools.py,
  lines 206-244), over a model `PyVal` of Python values.  Python raising an
  exception (`AttributeError` from calling `.get`/`.strip` on a non-dict /
  non-string, `TypeError` from iterating a non-iterable) is modelled by
  `Except.error`.
* `formatPageBlocks` / `runToolGetPageText` — the text-format path of
  `GetPageContentToolHandler.run_tool` (tools.py lines 273-316): the
  page-not-found check, the `blocks` extraction, the per-block dispatch on
  `isinstance(block, dict)` / `isinstance(block, str)`, and the empty-page
  single dash.
* `updatePageRunTool` — the argument-validation path of
  `UpdatePageToolHandler.run_tool` (tools.py lines 430-469).
* `parse_content`, `ParsedContent.to_batch_format` — the markdown parser.
  The `parser` module itself is not among the repository files available
  here (tools.py imports it as `from . import parser`); these definitions
  are modelled from the spec, as marked in their doc comments.

Python `str` values are Lean `String`s; all string manipulation is done by
structurally recursive functions over the character list `String.data`, so
every concrete computation reduces in the kernel.
-/

namespace McpLogseq

/-- A Python value, restricted to the shapes the tool handlers manipulate:
strings, ints, bools, lists, string-keyed dicts and `None`. -/
inductive PyVal where
  | str (s : String)
  | int (n : Int)
  | bool (b : Bool)
  | list (l : List PyVal)
  | dict (d : List (String × PyVal))
  | none

/-- Python `d.get(k, default)` on a dict modelled as an association list
(first matching key wins; a Python dict has unique keys). -/
def dictGet : List (String × PyVal) → String → PyVal → PyVal
  | [], _, dflt => dflt
  | (k', v) :: rest, k, dflt => if k' = k then v else dictGet rest k dflt

/-- Python truthiness for the modelled value shapes. -/
def truthy : PyVal → Bool
  | .str s => !(s == "")
  | .int n => !(n == 0)
  | .bool b => b
  | .list l => !l.isEmpty
  | .dict d => !d.isEmpty
  | .none => false

/-- Models `isinstance(v, dict)`. -/
def pyIsDict : PyVal → Bool
  | .dict _ => true
  | _ => false

/-- Models `isinstance(v, str)`. -/
def pyIsStr : PyVal → Bool
  | .str _ => true
  | _ => false

/-- Python iteration `for x in v`: lists yield their elements, strings yield
their characters as one-character strings, dicts yield their keys; iterating
an int, bool or `None` raises `TypeError`. -/
def iterElems : PyVal → Except String (List PyVal)
  | .list l => Except.ok l
  | .str s => Except.ok (s.data.map (fun c => PyVal.str ⟨[c]⟩))
  | .dict d => Except.ok (d.map (fun p => PyVal.str p.1))
  | _ => Except.error "TypeError: not iterable"

mutual

/-- Structural nesting depth of a `PyVal`; used as recursion fuel for the
formatter so that all definitions reduce in the kernel. -/
def pyDepth : PyVal → Nat
  | .list l => pyDepthL l + 1
  | .dict d => pyDepthD d + 1
  | _ => 1

/-- Greatest `pyDepth` of a list's elements. -/
def pyDepthL : List PyVal → Nat
  | [] => 0
  | v :: vs => max (pyDepth v) (pyDepthL vs)

/-- Greatest `pyDepth` of a dict's values. -/
def pyDepthD : List (String × PyVal) → Nat
  | [] => 0
  | (_, v) :: ps => max (pyDepth v) (pyDepthD ps)

end

/-- The characters Python's `str.strip()` removes (the usual ASCII
whitespace; the handler contents only ever contain these). -/
def isPyWS (c : Char) : Bool := c = ' ' || c = '\t' || c = '\n' || c = '\r'

/-- Python `s.strip()`: remove leading and trailing whitespace. -/
def pyStrip (s : String) : String :=
  ⟨((s.data.dropWhile isPyWS).reverse.dropWhile isPyWS).reverse⟩

/-- Python `s * n` for strings: `n` copies of `s` concatenated. -/
def strMul (s : String) (n : Nat) : String := String.join (List.replicate n s)

/-- The guard `max_depth == -1 or indent_level < max_depth` from
`_format_block_tree` (tools.py line 237). -/
def cutoffOk (indentLevel : Nat) (maxDepth : Int) : Bool :=
  maxDepth == -1 || decide ((indentLevel : Int) < maxDepth)

/-- One step of the `for child in children: lines.extend(child_lines)` loop:
the accumulated lines, extended with the lines of one more child; an
exception from either side propagates. -/
def fmtStep (F : PyVal → Except String (List String))
    (acc : Except String (List String)) (c : PyVal) : Except String (List String) :=
  acc.bind fun ls => (F c).map fun cl => ls ++ cl

/-- Fuel-indexed embedding of `GetPageContentToolHandler._format_block_tree`
(tools.py lines 206-244).  Mirrors the source line by line:
`content = block.get("content", "").strip()`; return no lines when the
stripped content is empty; otherwise emit `("  " * indent_level) + "- " +
content`; then recurse into `block.get("children", [])` when that list is
truthy and `max_depth == -1 or indent_level < max_depth`.  A non-dict
`block` raises `AttributeError` (no `.get`), a non-string content value
raises `AttributeError` (no `.strip`), and a truthy non-list `children`
value raises when the loop touches its first element (a string or dict
yields strings, whose `.get` raises `AttributeError`; an int or bool is not
iterable, `TypeError`).  The fuel exceeds the recursion depth whenever it is
at least `pyDepth block`, as the adequacy lemmas below establish. -/
def formatGo : Nat → PyVal → Nat → Int → Except String (List String)
  | 0, _, _, _ => Except.error "recursion limit"
  | fuel + 1, block, indentLevel, maxDepth =>
    match block with
    | PyVal.dict d =>
      match dictGet d "content" (PyVal.str "") with
      | PyVal.str raw =>
        let content := pyStrip raw
        if content = "" then Except.ok []
        else
          let indent := strMul "  " indentLevel
          let line := indent ++ "- " ++ content
          match dictGet d "children" (PyVal.list []) with
          | PyVal.list cs =>
            if (!cs.isEmpty) && cutoffOk indentLevel maxDepth then
              (cs.foldl (fmtStep fun c => formatGo fuel c (indentLevel + 1) maxDepth)
                (Except.ok [])).map fun rest => line :: rest
            else Except.ok [line]
          | cv =>
            if truthy cv && cutoffOk indentLevel maxDepth then
              Except.error "AttributeError: child has no attribute get"
            else Except.ok [line]
      | _ => Except.error "AttributeError: content has no attribute strip"
    | _ => Except.error "AttributeError: block has no attribute get"

/-- `_format_block_tree(block, indent_level, max_depth)`: `formatGo` with
enough fuel for `block`'s nesting depth. -/
def formatBlockTree (block : PyVal) (indentLevel : Nat) (maxDepth : Int) :
    Except String (List String) :=
  formatGo (pyDepth block) block indentLevel maxDepth

/-- The children loop of `_format_block_tree`, with each child formatted by
`formatBlockTree` itself (equal to the fuelled loop by the adequacy
lemmas). -/
def formatChildrenList (cs : List PyVal) (indentLevel : Nat) (maxDepth : Int) :
    Except String (List String) :=
  cs.foldl (fmtStep fun c => formatBlockTree c indentLevel maxDepth) (Except.ok [])

/-- The `for block in blocks` loop of `GetPageContentToolHandler.run_tool`
(tools.py lines 306-311): a dict block is formatted by
`_format_block_tree(block, 0, max_depth)`; a string block with truthy
stripped form contributes the single line `"- " + block` (the raw string,
not stripped); any other block is skipped. -/
def formatPageBlocks : List PyVal → Int → Except String (List String)
  | [], _ => Except.ok []
  | b :: rest, maxDepth =>
    match b with
    | PyVal.dict _ =>
      (formatBlockTree b 0 maxDepth).bind fun ls =>
        (formatPageBlocks rest maxDepth).map fun more => ls ++ more
    | PyVal.str s =>
      (formatPageBlocks rest maxDepth).map fun more =>
        (if pyStrip s = "" then [] else ["- " ++ s]) ++ more
    | _ => formatPageBlocks rest maxDepth

/-- The text-format path of `GetPageContentToolHandler.run_tool` (tools.py
lines 273-316), for a `result` already returned by the API: a falsy result
yields the not-found message; otherwise `blocks = result.get("blocks", [])`
(an `AttributeError` on a truthy non-dict result); a falsy `blocks` yields
the single line `"-"`; otherwise the block loop runs and the lines are
joined with newlines.  The `format == "json"` branch (line 292) is not
modelled: this function is the `format == "text"` path. -/
def runToolGetPageText (pageName : String) (result : PyVal) (maxDepth : Int) :
    Except String String :=
  if truthy result then
    match result with
    | PyVal.dict d =>
      let blocksVal := dictGet d "blocks" (PyVal.list [])
      if truthy blocksVal then
        match iterElems blocksVal with
        | Except.ok bs => (formatPageBlocks bs maxDepth).map (String.intercalate "\n")
        | Except.error e => Except.error e
      else Except.ok "-"
    | _ => Except.error "AttributeError: result has no attribute get"
  else Except.ok ("Page '" ++ pageName ++ "' not found.")

/-- A well-shaped block as the remote store returns it: a string content and
a list of well-shaped children.  `FBlock.toPy` injects it into the Python
value model. -/
inductive FBlock where
  | mk (content : String) (children : List FBlock)

/-- The content of a well-shaped block. -/
def FBlock.content : FBlock → String
  | .mk c _ => c

/-- The children of a well-shaped block. -/
def FBlock.children : FBlock → List FBlock
  | .mk _ cs => cs

mutual

/-- The Python dict `{"content": ..., "children": [...]}` for a well-shaped
block. -/
def FBlock.toPy : FBlock → PyVal
  | .mk c cs => PyVal.dict [("content", PyVal.str c), ("children", PyVal.list (FBlock.toPyL cs))]

/-- `FBlock.toPy` mapped over a forest. -/
def FBlock.toPyL : List FBlock → List PyVal
  | [] => []
  | b :: bs => FBlock.toPy b :: FBlock.toPyL bs

end

mutual

/-- Reference renderer for well-shaped blocks: the lines
`_format_block_tree` produces on `FBlock.toPy` input (proved equal below):
nothing for empty stripped content, otherwise the indented line followed by
the children's lines at the next indent level when the depth guard holds. -/
def renderF : FBlock → Nat → Int → List String
  | .mk c cs, i, m =>
    if pyStrip c = "" then []
    else
      (strMul "  " i ++ "- " ++ pyStrip c) ::
        (if (!(FBlock.toPyL cs).isEmpty) && cutoffOk i m then renderForestF cs (i + 1) m else [])

/-- `renderF` over a forest, concatenated in order. -/
def renderForestF : List FBlock → Nat → Int → List String
  | [], _, _ => []
  | b :: bs, i, m => renderF b i m ++ renderForestF bs i m

end

mutual

/-- Structural size of a well-shaped block, used for induction. -/
def fsize : FBlock → Nat
  | .mk _ cs => fsizeL cs + 1

/-- Structural size of a forest of well-shaped blocks. -/
def fsizeL : List FBlock → Nat
  | [] => 0
  | b :: bs => fsize b + fsizeL bs

end

/-! ## The markdown parser

The repository's `parser` module (`parse_content`, `ParsedContent`,
`to_batch_format`) is imported by tools.py but its file is not among the
sources available here, so the definitions in this section are modelled
from the spec, as their doc comments state. -/

/-- Split a character list into the groups separated by `sep` (Python
`s.split(sep)`: n separators give n+1 groups, possibly empty). -/
def splitChar (sep : Char) : List Char → List (List Char)
  | [] => [[]]
  | c :: rest =>
    let r := splitChar sep rest
    if c = sep then [] :: r
    else
      match r with
      | [] => [[c]]
      | g :: gs => (c :: g) :: gs

/-- Python `s.split(sep)` for a one-character separator. -/
def pySplit (s : String) (sep : Char) : List String :=
  (splitChar sep s.data).map (fun g => ⟨g⟩)

/-- Whether `pat` is a leading run of `cs`. -/
def leadMatch : List Char → List Char → Bool
  | [], _ => true
  | _ :: _, [] => false
  | p :: ps, c :: cs => p = c && leadMatch ps cs

/-- Python `s.startswith(t)`. -/
def strStarts (s t : String) : Bool := leadMatch t.data s.data

/-- Python `s.endswith(t)`. -/
def strEnds (s t : String) : Bool := leadMatch t.data.reverse s.data.reverse

/-- Length of the leading run of character `c` in `cs`. -/
def leadCount (c : Char) (cs : List Char) : Nat :=
  (cs.takeWhile (fun x => x = c)).length

/-- Modelled from the spec: a frontmatter property value is either a plain
string or, when written `[a, b, c]`, a list of comma-separated trimmed
strings (spec 4.1 step 1). -/
inductive PropVal where
  | str (s : String)
  | list (xs : List String)
deriving DecidableEq

/-- Modelled from the spec: a parsed block — raw `content`, the nesting
`depth` captured during parsing (root blocks are depth 0), and the ordered
`children` (spec 3, "Block").  The spec's optional `marker` and block-level
`properties` fields play no role in any claim and are not modelled. -/
inductive Block where
  | mk (content : String) (depth : Nat) (children : List Block)

/-- Content of a parsed block. -/
def Block.content : Block → String
  | .mk c _ _ => c

/-- Captured depth of a parsed block. -/
def Block.depth : Block → Nat
  | .mk _ d _ => d

/-- Children of a parsed block. -/
def Block.children : Block → List Block
  | .mk _ _ cs => cs

/-- Modelled from the spec: the parser's output for one document — the
top-level block forest and the page-level properties from frontmatter
(spec 3, "ParsedContent"). -/
structure ParsedContent where
  blocks : List Block
  properties : List (String × PropVal)

/-- Modelled from the spec: `parser.ParsedContent()` with no arguments, the
empty document (no blocks, no properties), as built by the handlers when
`content` is empty. -/
def ParsedContent.empty : ParsedContent := ⟨[], []⟩

/-- A line consisting solely of the frontmatter delimiter `---` (after
trimming surrounding whitespace). -/
def isDelimLine (l : String) : Bool := pyStrip l == "---"

/-- Scan forward for the next delimiter line: `some (before, after)` splits
at the first delimiter (which is consumed), `none` when no delimiter
follows. -/
def findDelim : List String → Option (List String × List String)
  | [] => Option.none
  | l :: rest =>
    if isDelimLine l then Option.some ([], rest)
    else
      match findDelim rest with
      | Option.some (a, b) => Option.some (l :: a, b)
      | Option.none => Option.none

/-- Modelled from the spec: one `key: value` frontmatter line — split at the
first colon, trim both sides; a value wrapped in `[...]` becomes the list of
comma-separated trimmed strings; a line with no colon is unparsable and is
discarded (spec 4.1 step 1, spec 7). -/
def parsePropLine (l : String) : Option (String × PropVal) :=
  match pySplit l ':' with
  | [] => Option.none
  | [_] => Option.none
  | k :: rest =>
    let v := pyStrip (String.intercalate ":" rest)
    let value :=
      if strStarts v "[" && strEnds v "]" then
        PropVal.list ((splitChar ',' ((v.data.drop 1).dropLast)).map (fun g => pyStrip ⟨g⟩))
      else PropVal.str v
    Option.some (pyStrip k, value)

/-- Frontmatter lines as a key/value mapping, unparsable lines dropped. -/
def parseProps (ls : List String) : List (String × PropVal) :=
  ls.filterMap parsePropLine

/-- Modelled from the spec: frontmatter extraction (spec 4.1 step 1).  If
the document begins, after optional leading whitespace, with a line that is
solely the `---` delimiter, scan forward to the next delimiter line; the
lines between become the properties and the lines after are the body.  No
opening delimiter at the very start, or a missing closing delimiter, means
no frontmatter: all lines are body (spec 7, malformed frontmatter is
reinterpreted as ordinary body content). -/
def extractFrontmatter (lines : List String) : List (String × PropVal) × List String :=
  let rest := lines.dropWhile (fun l => pyStrip l == "")
  match rest with
  | [] => ([], lines)
  | first :: afterFirst =>
    if isDelimLine first then
      match findDelim afterFirst with
      | Option.some (fmLines, body) => (parseProps fmLines, body)
      | Option.none => ([], lines)
    else ([], lines)

/-- Modelled from the spec: heading classification — a `#`..`######` prefix
followed by a space (or nothing) is a heading; the hash count `n` gives
depth `n - 1` and the heading text is the trimmed remainder (spec 4.1
step 2). -/
def headingOf (l : String) : Option (Nat × String) :=
  let n := leadCount '#' l.data
  if 1 ≤ n ∧ n ≤ 6 then
    let rest : String := ⟨l.data.drop n⟩
    if rest = "" || strStarts rest " " then Option.some (n, pyStrip rest)
    else Option.none
  else Option.none

/-- Modelled from the spec: list-item classification — leading spaces give
the indentation, and the remainder must start with a bullet (`- ` or `* `)
or a numbered marker (digits then `. `); the result is the indentation
width and the trimmed item text (spec 4.1 step 2). -/
def listItemOf (l : String) : Option (Nat × String) :=
  let ind := leadCount ' ' l.data
  let t := l.data.drop ind
  if leadMatch "- ".data t then Option.some (ind, pyStrip ⟨t.drop 2⟩)
  else if leadMatch "* ".data t then Option.some (ind, pyStrip ⟨t.drop 2⟩)
  else
    let ds := t.takeWhile Char.isDigit
    if (!ds.isEmpty) && leadMatch ". ".data (t.drop ds.length) then
      Option.some (ind, pyStrip ⟨t.drop (ds.length + 2)⟩)
    else Option.none

/-- Collect the lines of a fenced code block up to (and consuming) the
closing fence; with no closing fence the block is closed implicitly at the
end of the document (spec 4.1, tie-break policy). -/
def takeCode : List String → List String × List String
  | [] => ([], [])
  | l :: rest =>
    if strStarts (pyStrip l) "```" then ([], rest)
    else
      let p := takeCode rest
      (l :: p.1, p.2)

/-- Modelled from the spec: line classification and flat item construction
(spec 4.1 steps 2 and 4).  Walks the body producing `(content, depth)`
items.  State: `base` is the current heading scope's depth (a heading with
`n` hashes is an item at depth `n - 1` and sets `base := n`, so following
content becomes its descendant); `prevPlain` records whether the previous
line was plain text, for paragraph continuation; `acc` holds the items in
reverse.  Blank lines produce nothing and only break continuation; a fence
line starts a code block collected verbatim into a single item at `base`; a
list item at indentation `ind` is an item at depth `base + ind / 2`
(two-space units, irregular indentation rounding down); a blockquote line is
its own item at `base`; any other line is plain text, merged into the
previous plain item when continuation holds, else a new item at `base`.
The fuel is the number of lines, which each step consumes at least one of. -/
def bodyGo : Nat → List String → Nat → Bool → List (String × Nat) → List (String × Nat)
  | 0, _, _, _, acc => acc.reverse
  | _ + 1, [], _, _, acc => acc.reverse
  | fuel + 1, l :: rest, base, prevPlain, acc =>
    if pyStrip l = "" then bodyGo fuel rest base false acc
    else if strStarts (pyStrip l) "```" then
      let p := takeCode rest
      bodyGo fuel p.2 base false ((String.intercalate "\n" p.1, base) :: acc)
    else
      match headingOf l with
      | Option.some (n, text) => bodyGo fuel rest n false ((text, n - 1) :: acc)
      | Option.none =>
        match listItemOf l with
        | Option.some (ind, text) =>
          bodyGo fuel rest base false ((text, base + ind / 2) :: acc)
        | Option.none =>
          if strStarts (pyStrip l) ">" then
            bodyGo fuel rest base false ((pyStrip l, base) :: acc)
          else
            match prevPlain, acc with
            | true, (c, d) :: accRest =>
              bodyGo fuel rest base true ((c ++ "\n" ++ pyStrip l, d) :: accRest)
            | _, _ => bodyGo fuel rest base true ((pyStrip l, base) :: acc)

/-- The flat `(content, depth)` items of a document body. -/
def bodyItems (lines : List String) : List (String × Nat) :=
  bodyGo lines.length lines 0 false []

/-- Modelled from the spec: hierarchy assembly (spec 4.1 step 3).  Builds
the forest at nesting level `d` from a flat item sequence: the first item
becomes a block at level `d` (an item deeper than the level below its
parent is clamped — new nesting levels are created one increment at a time,
never skipping levels); the following items with depth greater than `d`
become its children at level `d + 1`; the rest are its siblings.  The fuel
is the item count, which each constructed block consumes at least one of. -/
def nestGo : Nat → Nat → List (String × Nat) → List Block
  | 0, _, _ => []
  | _ + 1, _, [] => []
  | fuel + 1, d, (c, _) :: rest =>
    Block.mk c d (nestGo fuel (d + 1) (rest.takeWhile (fun q => decide (d < q.2))))
      :: nestGo fuel d (rest.dropWhile (fun q => decide (d < q.2)))

/-- Re-nesting a flat `(content, depth)` sequence by depth, starting at
level `d`. -/
def nestLevel (d : Nat) (items : List (String × Nat)) : List Block :=
  nestGo items.length d items

/-- Modelled from the spec: `parse(markdown) -> ParsedContent` (spec 4.1).
Split into lines, extract frontmatter, classify the body into flat items,
drop items whose content trims to empty (spec 4.1 step 5), and assemble the
hierarchy.  Total by construction: no input raises. -/
def parse_content (markdown : String) : ParsedContent :=
  let lines := pySplit markdown '\n'
  let fm := extractFrontmatter lines
  let items := (bodyItems fm.2).filter (fun q => !(pyStrip q.1 == ""))
  ⟨nestLevel 0 items, fm.1⟩

mutual

/-- Preorder flattening of one block: its own `(content, depth)` pair, then
its descendants'. -/
def flattenBlock : Block → List (String × Nat)
  | .mk c d cs => (c, d) :: flattenForest cs

/-- Preorder flattening of a forest. -/
def flattenForest : List Block → List (String × Nat)
  | [] => []
  | b :: bs => flattenBlock b ++ flattenForest bs

end

/-- Modelled from the spec: `ParsedContent.to_batch_format()` — the forest
flattened via preorder traversal into `(content, depth)` pairs (spec 4.1,
batch serialization). -/
def ParsedContent.to_batch_format (pc : ParsedContent) : List (String × Nat) :=
  flattenForest pc.blocks

mutual

/-- The depth invariant of spec 3: a block at level `d` records depth `d`
and its children satisfy the invariant at level `d + 1`. -/
def blockConsistent : Nat → Block → Bool
  | d, .mk _ bd cs => bd == d && forestConsistent (d + 1) cs

/-- `blockConsistent` over a forest. -/
def forestConsistent : Nat → List Block → Bool
  | _, [] => true
  | d, b :: bs => blockConsistent d b && forestConsistent d bs

end

mutual

/-- Structural size of a parsed block, used for induction. -/
def bsize : Block → Nat
  | .mk _ _ cs => bsizeL cs + 1

/-- Structural size of a parsed forest. -/
def bsizeL : List Block → Nat
  | [] => 0
  | b :: bs => bsize b + bsizeL bs

end

/-! ## The update_page handler -/

/-- First value stored under key `k`, if any. -/
def dictFind : List (String × PropVal) → String → Option PropVal
  | [], _ => Option.none
  | (k', v) :: rest, k => if k' = k then Option.some v else dictFind rest k

/-- Python `{**a, **b}`: every key of `a`, with `b`'s value when `b` also
binds it, followed by the keys only `b` binds. -/
def mergeProps (a b : List (String × PropVal)) : List (String × PropVal) :=
  a.map (fun p =>
    match dictFind b p.1 with
    | Option.some v => (p.1, v)
    | Option.none => p)
  ++ b.filter (fun q => !(a.any (fun p => p.1 == q.1)))

/-- What `UpdatePageToolHandler.run_tool` does after argument extraction:
either it returns an error text without touching the API, or it reaches the
single `api.update_page_with_blocks(page_name, blocks, page_properties,
mode=mode)` call with these arguments. -/
inductive UpdateOutcome where
  | errorText (msg : String)
  | apiCall (pageName : String) (blocks : List (String × Nat))
      (pageProperties : Option (List (String × PropVal))) (mode : String)

/-- Embedding of `UpdatePageToolHandler.run_tool` (tools.py lines 430-469)
up to the API call, given the extracted arguments (`content` defaults to
`""`, `mode` to `"append"`, `properties` to `{}`).  When both `content` and
`explicit_properties` are falsy it returns the error text before any API
object is built; otherwise it parses the content (an empty `ParsedContent`
for empty content), merges frontmatter and explicit properties (explicit
wins; `None` when both are empty), converts the blocks to batch format and
reaches the `update_page_with_blocks` call. -/
def updatePageRunTool (pageName : String) (content : String) (mode : String)
    (explicitProperties : List (String × PropVal)) : UpdateOutcome :=
  if content = "" ∧ explicitProperties = [] then
    UpdateOutcome.errorText "Error: Either 'content' or 'properties' must be provided for update"
  else
    let parsed := if content = "" then ParsedContent.empty else parse_content content
    let pageProperties :=
      if parsed.properties = [] ∧ explicitProperties = [] then Option.none
      else Option.some (mergeProps parsed.properties explicitProperties)
    UpdateOutcome.apiCall pageName parsed.to_batch_format pageProperties mode

/-! ## Formatter lemmas -/

theorem pyDepth_pos (v : PyVal) : 1 ≤ pyDepth v := by
  cases v <;> simp [pyDepth]

theorem pyDepthL_mem {v : PyVal} {l : List PyVal} (h : v ∈ l) : pyDepth v ≤ pyDepthL l := by
  induction l with
  | nil => cases h
  | cons a as ih =>
    rcases List.mem_cons.mp h with rfl | h'
    · simp [pyDepthL]
    · simp only [pyDepthL]
      exact le_trans (ih h') (le_max_right _ _)

theorem pyDepthD_mem {k : String} {v : PyVal} {d : List (String × PyVal)}
    (h : (k, v) ∈ d) : pyDepth v ≤ pyDepthD d := by
  induction d with
  | nil => cases h
  | cons p ps ih =>
    rcases p with ⟨k', v'⟩
    rcases List.mem_cons.mp h with heq | h'
    · cases heq
      simp [pyDepthD]
    · simp only [pyDepthD]
      exact le_trans (ih h') (le_max_right _ _)

theorem dictGet_cases (d : List (String × PyVal)) (k : String) (dflt : PyVal) :
    dictGet d k dflt = dflt ∨ ∃ k', (k', dictGet d k dflt) ∈ d := by
  induction d with
  | nil => exact Or.inl rfl
  | cons p rest ih =>
    rcases p with ⟨k', v⟩
    by_cases h : k' = k
    · right
      exact ⟨k', by simp [dictGet, h]⟩
    · rcases ih with h1 | ⟨k'', h2⟩
      · left
        simpa [dictGet, h] using h1
      · right
        refine ⟨k'', ?_⟩
        simp only [dictGet, if_neg h]
        exact List.mem_cons_of_mem _ h2

theorem children_pyDepth {d : List (String × PyVal)} {cs : List PyVal}
    (hch : dictGet d "children" (PyVal.list []) = PyVal.list cs)
    {c : PyVal} (hc : c ∈ cs) : pyDepth c < pyDepth (PyVal.dict d) := by
  rcases dictGet_cases d "children" (PyVal.list []) with h | ⟨k', hmem⟩
  · rw [hch] at h
    cases h
    cases hc
  · rw [hch] at hmem
    have h1 : pyDepth (PyVal.list cs) ≤ pyDepthD d := pyDepthD_mem hmem
    have h2 : pyDepth c ≤ pyDepthL cs := pyDepthL_mem hc
    simp only [pyDepth] at h1 ⊢
    omega

theorem foldl_fmtStep_congr (F G : PyVal → Except String (List String)) :
    ∀ (cs : List PyVal) (acc : Except String (List String)),
      (∀ c ∈ cs, F c = G c) →
      cs.foldl (fmtStep F) acc = cs.foldl (fmtStep G) acc := by
  intro cs
  induction cs with
  | nil => intro acc _; rfl
  | cons c rest ih =>
    intro acc h
    simp only [List.foldl_cons]
    rw [show fmtStep F acc c = fmtStep G acc c by simp [fmtStep, h c (by simp)]]
    exact ih _ (fun x hx => h x (by simp [hx]))

theorem formatGo_mono : ∀ (n : Nat) (b : PyVal) (f₁ f₂ i : Nat) (m : Int),
    pyDepth b ≤ n → pyDepth b ≤ f₁ → pyDepth b ≤ f₂ →
    formatGo f₁ b i m = formatGo f₂ b i m := by
  intro n
  induction n with
  | zero =>
    intro b _ _ _ _ hn _ _
    have := pyDepth_pos b
    omega
  | succ n ih =>
    intro b f₁ f₂ i m hn h1 h2
    have hp := pyDepth_pos b
    match f₁, f₂ with
    | 0, _ => omega
    | _ + 1, 0 => omega
    | a + 1, c + 1 =>
      cases b with
      | dict d =>
        simp only [formatGo]
        cases hcv : dictGet d "content" (PyVal.str "") with
        | str raw =>
          by_cases hr : pyStrip raw = ""
          · simp [hr]
          · simp only [hr, if_false]
            cases hch : dictGet d "children" (PyVal.list []) with
            | list cs =>
              have hcongr :
                  cs.foldl (fmtStep fun x => formatGo a x (i + 1) m) (Except.ok []) =
                  cs.foldl (fmtStep fun x => formatGo c x (i + 1) m) (Except.ok []) := by
                refine foldl_fmtStep_congr _ _ cs (Except.ok []) (fun x hx => ?_)
                have hlt := children_pyDepth hch hx
                simp only [pyDepth] at hn h1 h2 hlt
                exact ih x a c (i + 1) m (by omega) (by omega) (by omega)
              simp [hcongr]
            | str s => rfl
            | int k => rfl
            | bool bb => rfl
            | dict d' => rfl
            | none => rfl
        | int k => rfl
        | bool bb => rfl
        | list l => rfl
        | dict d' => rfl
        | none => rfl
      | str s => rfl
      | int k => rfl
      | bool bb => rfl
      | list l => rfl
      | none => rfl

theorem formatGo_eq_formatBlockTree (f : Nat) (b : PyVal) (i : Nat) (m : Int)
    (h : pyDepth b ≤ f) : formatGo f b i m = formatBlockTree b i m :=
  formatGo_mono f b f (pyDepth b) i m h h (le_refl _)

theorem formatBlockTree_dict_eq (d : List (String × PyVal)) (raw : String)
    (cs : List PyVal) (i : Nat) (m : Int)
    (hc : dictGet d "content" (PyVal.str "") = PyVal.str raw)
    (hch : dictGet d "children" (PyVal.list []) = PyVal.list cs) :
    formatBlockTree (PyVal.dict d) i m =
      if pyStrip raw = "" then Except.ok []
      else if (!cs.isEmpty) && cutoffOk i m then
        (formatChildrenList cs (i + 1) m).map
          (fun rest => (strMul "  " i ++ "- " ++ pyStrip raw) :: rest)
      else Except.ok [strMul "  " i ++ "- " ++ pyStrip raw] := by
  have hd : pyDepth (PyVal.dict d) = pyDepthD d + 1 := by simp [pyDepth]
  simp only [formatBlockTree, hd, formatGo]
  rw [hc, hch]
  by_cases hr : pyStrip raw = ""
  · simp [hr]
  · have hcongr :
        cs.foldl (fmtStep fun x => formatGo (pyDepthD d) x (i + 1) m) (Except.ok []) =
        formatChildrenList cs (i + 1) m := by
      refine foldl_fmtStep_congr _ _ cs (Except.ok []) (fun x hx => ?_)
      have hlt := children_pyDepth hch hx
      rw [hd] at hlt
      exact formatGo_eq_formatBlockTree (pyDepthD d) x (i + 1) m (by omega)
    simp [hr, hcongr]

theorem formatBlockTree_empty_eq (d : List (String × PyVal)) (i : Nat) (m : Int)
    (raw : String) (hc : dictGet d "content" (PyVal.str "") = PyVal.str raw)
    (hr : pyStrip raw = "") : formatBlockTree (PyVal.dict d) i m = Except.ok [] := by
  have hd : pyDepth (PyVal.dict d) = pyDepthD d + 1 := by simp [pyDepth]
  simp only [formatBlockTree, hd, formatGo]
  rw [hc]
  simp [hr]

theorem fsize_pos (b : FBlock) : 1 ≤ fsize b := by
  cases b
  simp [fsize]

theorem renderMaster : ∀ (n : Nat),
    (∀ (b : FBlock), fsize b ≤ n → ∀ (i : Nat) (m : Int),
      formatBlockTree (FBlock.toPy b) i m = Except.ok (renderF b i m)) ∧
    (∀ (cs : List FBlock), fsizeL cs ≤ n → ∀ (i : Nat) (m : Int) (acc : List String),
      (FBlock.toPyL cs).foldl (fmtStep fun c => formatBlockTree c i m) (Except.ok acc)
        = Except.ok (acc ++ renderForestF cs i m)) := by
  intro n
  induction n with
  | zero =>
    constructor
    · intro b hb
      have := fsize_pos b
      omega
    · intro cs hcs i m acc
      cases cs with
      | nil => simp [FBlock.toPyL, renderForestF]
      | cons b bs =>
        have := fsize_pos b
        simp [fsizeL] at hcs
        omega
  | succ n ih =>
    have hblock : ∀ (b : FBlock), fsize b ≤ n + 1 → ∀ (i : Nat) (m : Int),
        formatBlockTree (FBlock.toPy b) i m = Except.ok (renderF b i m) := by
      intro b hb i m
      rcases b with ⟨c, cs⟩
      have hc : dictGet [("content", PyVal.str c),
          ("children", PyVal.list (FBlock.toPyL cs))] "content" (PyVal.str "")
          = PyVal.str c := by simp [dictGet]
      have hch : dictGet [("content", PyVal.str c),
          ("children", PyVal.list (FBlock.toPyL cs))] "children" (PyVal.list [])
          = PyVal.list (FBlock.toPyL cs) := by simp [dictGet]
      have hstep := formatBlockTree_dict_eq _ _ _ i m hc hch
      rw [show FBlock.toPy (FBlock.mk c cs)
          = PyVal.dict [("content", PyVal.str c),
              ("children", PyVal.list (FBlock.toPyL cs))] from rfl, hstep]
      by_cases hr : pyStrip c = ""
      · simp [hr, renderF]
      · simp only [hr, if_false, renderF]
        by_cases hcond : (!(FBlock.toPyL cs).isEmpty) && cutoffOk i m
        · have hsz : fsizeL cs ≤ n := by
            simp only [fsize] at hb
            omega
          have hforest := ih.2 cs hsz (i + 1) m []
          simp only [formatChildrenList]
          simp [hcond, hforest, Except.map]
        · simp [hcond]
    refine ⟨hblock, ?_⟩
    intro cs
    induction cs with
    | nil =>
      intro _ i m acc
      simp [FBlock.toPyL, renderForestF]
    | cons b bs ihl =>
      intro hcs i m acc
      have hsz : fsize b ≤ n + 1 ∧ fsizeL bs ≤ n + 1 := by
        simp only [fsizeL] at hcs
        have := fsize_pos b
        omega
      simp only [FBlock.toPyL, List.foldl_cons]
      rw [show fmtStep (fun c => formatBlockTree c i m) (Except.ok acc) (FBlock.toPy b)
          = Except.ok (acc ++ renderF b i m) by
        simp [fmtStep, hblock b hsz.1 i m, Except.bind, Except.map]]
      rw [ihl hsz.2 i m (acc ++ renderF b i m)]
      simp [renderForestF]

theorem formatBlockTree_toPy (b : FBlock) (i : Nat) (m : Int) :
    formatBlockTree (FBlock.toPy b) i m = Except.ok (renderF b i m) :=
  (renderMaster (fsize b)).1 b (le_refl _) i m

theorem formatPageBlocks_toPyL (bs : List FBlock) (m : Int) :
    formatPageBlocks (FBlock.toPyL bs) m = Except.ok (renderForestF bs 0 m) := by
  induction bs with
  | nil => rfl
  | cons b rest ih =>
    rcases b with ⟨c, cs⟩
    simp only [FBlock.toPyL, FBlock.toPy, formatPageBlocks]
    rw [show PyVal.dict [("content", PyVal.str c),
        ("children", PyVal.list (FBlock.toPyL cs))]
        = FBlock.toPy (FBlock.mk c cs) from rfl]
    rw [formatBlockTree_toPy, ih]
    simp [Except.bind, Except.map, renderForestF]

theorem cutoffOk_iff (i : Nat) (m : Int) :
    cutoffOk i m = true ↔ (m = -1 ∨ (i : Int) < m) := by
  simp [cutoffOk]

/-! ## Parser lemmas -/

theorem takeWhile_length_le {α} (p : α → Bool) (l : List α) :
    (l.takeWhile p).length ≤ l.length := by
  induction l with
  | nil => simp
  | cons x xs ih =>
    by_cases h : p x
    · simp only [List.takeWhile_cons, if_pos h, List.length_cons]
      omega
    · simp [List.takeWhile_cons, if_neg h]

theorem dropWhile_length_le {α} (p : α → Bool) (l : List α) :
    (l.dropWhile p).length ≤ l.length := by
  induction l with
  | nil => simp
  | cons x xs ih =>
    by_cases h : p x
    · simp only [List.dropWhile_cons, if_pos h, List.length_cons]
      omega
    · simp [List.dropWhile_cons, if_neg h]

theorem takeWhile_append_of_all {α} (p : α → Bool) {xs : List α} (ys : List α)
    (h : ∀ x ∈ xs, p x = true) :
    (xs ++ ys).takeWhile p = xs ++ ys.takeWhile p := by
  induction xs with
  | nil => simp
  | cons x rest ih =>
    simp only [List.cons_append, List.takeWhile_cons, h x (by simp), if_true]
    rw [ih (fun a ha => h a (by simp [ha]))]

theorem dropWhile_append_of_all {α} (p : α → Bool) {xs : List α} (ys : List α)
    (h : ∀ x ∈ xs, p x = true) :
    (xs ++ ys).dropWhile p = ys.dropWhile p := by
  induction xs with
  | nil => simp
  | cons x rest ih =>
    simp only [List.cons_append, List.dropWhile_cons, h x (by simp), if_true]
    exact ih (fun a ha => h a (by simp [ha]))

theorem nestGo_consistent : ∀ (fuel d : Nat) (items : List (String × Nat)),
    items.length ≤ fuel → forestConsistent d (nestGo fuel d items) = true := by
  intro fuel
  induction fuel with
  | zero =>
    intro d items _
    simp [nestGo, forestConsistent]
  | succ f ih =>
    intro d items h
    cases items with
    | nil => simp [nestGo, forestConsistent]
    | cons q rest =>
      rcases q with ⟨c, k⟩
      have hr : rest.length ≤ f := by
        simp only [List.length_cons] at h
        omega
      have h1 := ih (d + 1) (rest.takeWhile (fun q => decide (d < q.2)))
        (le_trans (takeWhile_length_le _ _) hr)
      have h2 := ih d (rest.dropWhile (fun q => decide (d < q.2)))
        (le_trans (dropWhile_length_le _ _) hr)
      simp [nestGo, forestConsistent, blockConsistent, h1, h2]

theorem bsize_pos (b : Block) : 1 ≤ bsize b := by
  cases b
  simp [bsize]

theorem flattenForest_cons (c : String) (bd : Nat) (kids rest : List Block) :
    flattenForest (Block.mk c bd kids :: rest)
      = (c, bd) :: (flattenForest kids ++ flattenForest rest) := by
  simp [flattenForest, flattenBlock]

theorem flatten_deep : ∀ (n : Nat) (bs : List Block) (d : Nat), bsizeL bs ≤ n →
    forestConsistent d bs = true → ∀ q ∈ flattenForest bs, d ≤ q.2 := by
  intro n
  induction n with
  | zero =>
    intro bs d hs _ q hq
    cases bs with
    | nil => simp [flattenForest] at hq
    | cons b rest =>
      have := bsize_pos b
      simp only [bsizeL] at hs
      omega
  | succ n ih =>
    intro bs d hs hc q hq
    cases bs with
    | nil => simp [flattenForest] at hq
    | cons b rest =>
      rcases b with ⟨c, bd, kids⟩
      simp only [forestConsistent, blockConsistent, Bool.and_eq_true, beq_iff_eq] at hc
      obtain ⟨⟨hbd, hkids⟩, hrest⟩ := hc
      have hszk : bsizeL kids ≤ n := by
        simp only [bsizeL, bsize] at hs
        omega
      have hszr : bsizeL rest ≤ n := by
        simp only [bsizeL, bsize] at hs
        omega
      rw [flattenForest_cons] at hq
      rcases List.mem_cons.mp hq with rfl | hq'
      · simp [hbd]
      · rcases List.mem_append.mp hq' with hk | hr
        · have := ih kids (d + 1) hszk hkids q hk
          omega
        · exact ih rest d hszr hrest q hr

theorem nestGo_flatten : ∀ (fuel d : Nat) (bs : List Block),
    (flattenForest bs).length ≤ fuel → forestConsistent d bs = true →
    nestGo fuel d (flattenForest bs) = bs := by
  intro fuel
  induction fuel with
  | zero =>
    intro d bs h _
    cases bs with
    | nil => simp [flattenForest, nestGo]
    | cons b rest =>
      rcases b with ⟨c, bd, kids⟩
      rw [flattenForest_cons] at h
      simp at h
  | succ f ih =>
    intro d bs h hc
    cases bs with
    | nil => simp [flattenForest, nestGo]
    | cons b rest =>
      rcases b with ⟨c, bd, kids⟩
      simp only [forestConsistent, blockConsistent, Bool.and_eq_true, beq_iff_eq] at hc
      obtain ⟨⟨hbd, hkids⟩, hrest⟩ := hc
      rw [flattenForest_cons, hbd]
      simp only [nestGo]
      have hall : ∀ q ∈ flattenForest kids, (fun q => decide (d < q.2)) q = true := by
        intro q hq
        have := flatten_deep (bsizeL kids) kids (d + 1) (le_refl _) hkids q hq
        simp only [decide_eq_true_eq]
        omega
      have hrest_tw :
          (flattenForest rest).takeWhile (fun q => decide (d < q.2)) = [] := by
        cases rest with
        | nil => simp [flattenForest]
        | cons b' rest' =>
          rcases b' with ⟨c', bd', kids'⟩
          have hbd' : bd' = d := by
            simp only [forestConsistent, blockConsistent, Bool.and_eq_true,
              beq_iff_eq] at hrest
            exact hrest.1.1
          rw [flattenForest_cons]
          simp [List.takeWhile_cons, hbd']
      have hrest_dw :
          (flattenForest rest).dropWhile (fun q => decide (d < q.2))
            = flattenForest rest := by
        cases rest with
        | nil => simp [flattenForest]
        | cons b' rest' =>
          rcases b' with ⟨c', bd', kids'⟩
          have hbd' : bd' = d := by
            simp only [forestConsistent, blockConsistent, Bool.and_eq_true,
              beq_iff_eq] at hrest
            exact hrest.1.1
          rw [flattenForest_cons]
          simp [List.dropWhile_cons, hbd']
      rw [takeWhile_append_of_all _ _ hall, dropWhile_append_of_all _ _ hall,
        hrest_tw, List.append_nil, hrest_dw]
      have hlen : (flattenForest kids).length ≤ f ∧ (flattenForest rest).length ≤ f := by
        rw [flattenForest_cons] at h
        simp only [List.length_cons, List.length_append] at h
        omega
      rw [ih (d + 1) kids hlen.1 hkids, ih d rest hlen.2 hrest]

theorem parse_blocks_consistent (s : String) :
    forestConsistent 0 (parse_content s).blocks = true := by
  simp only [parse_content, nestLevel]
  exact nestGo_consistent _ 0 _ (le_refl _)

/-- Appending after zero copies of the indent is the identity. -/
theorem strMul_zero_append (s t : String) : strMul s 0 ++ t = t := rfl

/-! ## Claim theorems -/

/-- C1: for every input string, `parse_content` terminates and returns a
`ParsedContent` value (it is a total Lean function, so no input raises), and
its block forest always satisfies the depth invariant of the data model
(children exactly one level deeper, root blocks at depth 0); moreover a
document of unrecognized constructs degrades to a plain-paragraph block
rather than failing, as the concrete conjunct shows. -/
theorem parse_content_total_wellformed :
    (∀ (s : String), forestConsistent 0 (parse_content s).blocks = true) ∧
    parse_content "???\n<<<" = ⟨[Block.mk "???\n<<<" 0 []], []⟩ :=
  ⟨parse_blocks_consistent, rfl⟩

/-- C2 counterexample: the claim "the block-tree formatter never raises; any
block that is not a mapping of the expected shape is treated as an opaque
leaf" is false — a forest whose dict block has a non-dict nested child makes
the formatter raise `AttributeError` (the recursive call does `child.get` on
a string), modelled as `Except.error`. -/
theorem formatter_raises_on_nested_nondict :
    formatPageBlocks [PyVal.dict [("content", PyVal.str "a"),
      ("children", PyVal.list [PyVal.str "x"])]] (-1)
      = Except.error "AttributeError: block has no attribute get" := rfl

/-- C2 amended: at the top level only, the formatter never raises — a
well-shaped forest of dict blocks always formats to `Except.ok`, a string
block is emitted directly as the line `"- " + block` with no children, and
any other non-dict block is silently skipped (not emitted); a non-dict
value nested inside a dict block's children, however, raises
`AttributeError` (the counterexample). -/
theorem formatter_top_level_safety :
    (∀ (bs : List FBlock) (m : Int),
      formatPageBlocks (FBlock.toPyL bs) m = Except.ok (renderForestF bs 0 m)) ∧
    (∀ (s : String) (rest : List PyVal) (m : Int),
      formatPageBlocks (PyVal.str s :: rest) m =
        (formatPageBlocks rest m).map
          (fun more => (if pyStrip s = "" then [] else ["- " ++ s]) ++ more)) ∧
    (∀ (v : PyVal) (rest : List PyVal) (m : Int),
      pyIsDict v = false → pyIsStr v = false →
      formatPageBlocks (v :: rest) m = formatPageBlocks rest m) := by
  refine ⟨formatPageBlocks_toPyL, fun s rest m => rfl, ?_⟩
  intro v rest m hd hs
  cases v with
  | dict d => simp [pyIsDict] at hd
  | str s => simp [pyIsStr] at hs
  | int n => rfl
  | bool b => rfl
  | list l => rfl
  | none => rfl

/-- Witness for the C2 amended theorem: the non-dict non-string block
`PyVal.int 5` is skipped at the top level. -/
theorem formatter_top_level_safety_witness :
    pyIsDict (PyVal.int 5) = false ∧ pyIsStr (PyVal.int 5) = false ∧
    formatPageBlocks [PyVal.int 5] 0 = formatPageBlocks [] 0 :=
  ⟨rfl, rfl, formatter_top_level_safety.2.2 (PyVal.int 5) [] 0 rfl rfl⟩

/-- C3: for a block with non-empty stripped content, the formatter renders
the block's line and then its children at `depth + 1` exactly when
`max_depth = -1` or `depth < max_depth`; otherwise the children's lines are
silently omitted (the output is only the block's own line). -/
theorem format_children_cutoff :
    ∀ (c : String) (cs : List FBlock) (i : Nat) (m : Int), pyStrip c ≠ "" →
      formatBlockTree (FBlock.toPy (FBlock.mk c cs)) i m =
        Except.ok ((strMul "  " i ++ "- " ++ pyStrip c) ::
          (if m = -1 ∨ (i : Int) < m then renderForestF cs (i + 1) m else [])) := by
  intro c cs i m hne
  rw [formatBlockTree_toPy]
  simp only [renderF, hne, if_false]
  by_cases hcut : m = -1 ∨ (i : Int) < m
  · have hcb : cutoffOk i m = true := (cutoffOk_iff i m).mpr hcut
    cases cs with
    | nil => simp [hcb, hcut, FBlock.toPyL, renderForestF]
    | cons b bs => simp [hcb, hcut, FBlock.toPyL]
  · have hcb : cutoffOk i m = false := by
      rw [← Bool.not_eq_true]
      exact fun h => hcut ((cutoffOk_iff i m).mp h)
    simp [hcb, hcut]

/-- Witness for C3: the 3-level forest `a / b / c` with `max_depth = 1`
shows only levels 0 and 1; the level-2 content `c` is absent from every
output line. -/
theorem format_children_cutoff_witness :
    pyStrip "a" ≠ "" ∧
    formatBlockTree (FBlock.toPy
      (FBlock.mk "a" [FBlock.mk "b" [FBlock.mk "c" []]])) 0 1
      = Except.ok ["- a", "  - b"] :=
  ⟨by decide, by
    rw [format_children_cutoff "a" [FBlock.mk "b" [FBlock.mk "c" []]] 0 1 (by decide)]
    rfl⟩

/-- C4: a block whose content strips to the empty string produces no output
line and none of its children are rendered — whatever its `children` value
is (even a non-empty, or malformed, one), the formatter returns no lines. -/
theorem format_empty_content_skipped :
    ∀ (d : List (String × PyVal)) (i : Nat) (m : Int) (raw : String),
      dictGet d "content" (PyVal.str "") = PyVal.str raw → pyStrip raw = "" →
      formatBlockTree (PyVal.dict d) i m = Except.ok [] :=
  fun d i m raw hc hr => formatBlockTree_empty_eq d i m raw hc hr

/-- Witness for C4: whitespace-only content with a populated children list
still yields no lines. -/
theorem format_empty_content_skipped_witness :
    dictGet [("content", PyVal.str "   "),
      ("children", PyVal.list [PyVal.dict [("content", PyVal.str "kid"),
        ("children", PyVal.list [])]])] "content" (PyVal.str "")
      = PyVal.str "   " ∧
    pyStrip "   " = "" ∧
    formatBlockTree (PyVal.dict [("content", PyVal.str "   "),
      ("children", PyVal.list [PyVal.dict [("content", PyVal.str "kid"),
        ("children", PyVal.list [])]])]) 0 (-1) = Except.ok [] :=
  ⟨rfl, rfl, format_empty_content_skipped _ 0 (-1) "   " rfl rfl⟩

/-- C5: for every parsed document, flattening the block forest with
`to_batch_format` (preorder `(content, depth)` pairs) and re-nesting the
flat sequence by depth reproduces exactly the parsed forest — the round
trip is the identity on `parse_content`'s output. -/
theorem to_batch_format_roundtrip :
    ∀ (s : String),
      nestLevel 0 ((parse_content s).to_batch_format) = (parse_content s).blocks := by
  intro s
  have hc := parse_blocks_consistent s
  simp only [ParsedContent.to_batch_format, nestLevel]
  exact nestGo_flatten _ 0 _ (le_refl _) hc

/-- C6: parsing `"---\na: 1\n---\nHello"` yields the properties mapping
`{"a": "1"}` and a single block with content `"Hello"`; and a delimiter
that does not open the document (second conjunct) produces no properties. -/
theorem parse_frontmatter_example :
    parse_content "---\na: 1\n---\nHello"
      = ⟨[Block.mk "Hello" 0 []], [("a", PropVal.str "1")]⟩ ∧
    (parse_content "Hello\n---\nWorld").properties = [] :=
  ⟨rfl, rfl⟩

/-- C7 counterexample: the claim that a rendered block's line is the indent
followed by `"- "` followed by the block's content is false for content
with surrounding whitespace — the block `" x "` at depth 0 renders as
`"- x"`, not as `"-  x "`: the source strips the content first. -/
theorem format_line_strips_content_cex :
    formatBlockTree (FBlock.toPy (FBlock.mk " x " [])) 0 (-1)
      = Except.ok ["- x"] ∧
    ("- x" : String) ≠ strMul "  " 0 ++ "- " ++ " x " :=
  ⟨rfl, by decide⟩

/-- C7 amended: for every rendered block at depth `d` (non-empty stripped
content), the block's output line equals two spaces repeated `d` times,
followed by `"- "`, followed by the block's *stripped* content. -/
theorem format_line_shape :
    ∀ (c : String) (cs : List FBlock) (i : Nat) (m : Int), pyStrip c ≠ "" →
      ∃ rest, formatBlockTree (FBlock.toPy (FBlock.mk c cs)) i m
        = Except.ok ((strMul "  " i ++ "- " ++ pyStrip c) :: rest) := by
  intro c cs i m hne
  refine ⟨if (!(FBlock.toPyL cs).isEmpty) && cutoffOk i m then
    renderForestF cs (i + 1) m else [], ?_⟩
  rw [formatBlockTree_toPy]
  simp [renderF, hne]

/-- Witness for C7 amended: a deep block with padded content renders with
the stripped content after the indent and bullet. -/
theorem format_line_shape_witness :
    pyStrip "  hello  " ≠ "" ∧
    ∃ rest, formatBlockTree (FBlock.toPy (FBlock.mk "  hello  " [])) 3 (-1)
      = Except.ok ((strMul "  " 3 ++ "- " ++ pyStrip "  hello  ") :: rest) :=
  ⟨by decide, format_line_shape "  hello  " [] 3 (-1) (by decide)⟩

/-- C8: for every negative `max_depth` other than `-1` (that is,
`m < -1`), the formatter emits only the depth-0 blocks' lines and renders
no children at all: the guard `max_depth == -1 or indent_level < max_depth`
is false at every level. -/
theorem format_negative_max_depth :
    ∀ (bs : List FBlock) (m : Int), m < -1 →
      formatPageBlocks (FBlock.toPyL bs) m
        = Except.ok (bs.filterMap (fun b =>
            if pyStrip b.content = "" then Option.none
            else Option.some ("- " ++ pyStrip b.content))) := by
  intro bs m hm
  rw [formatPageBlocks_toPyL]
  congr 1
  have hcb : cutoffOk 0 m = false := by
    simp only [cutoffOk, Bool.or_eq_false_iff, beq_eq_false_iff_ne, ne_eq,
      decide_eq_false_iff_not, not_lt]
    omega
  induction bs with
  | nil => simp [renderForestF]
  | cons b rest ih =>
    rcases b with ⟨c, cs⟩
    simp only [renderForestF, renderF, List.filterMap_cons]
    by_cases hr : pyStrip c = ""
    · simp [hr, ih, FBlock.content]
    · simp [hr, hcb, ih, FBlock.content, strMul_zero_append]

/-- Witness for C8: with `max_depth = -2` a two-level forest renders only
its root line. -/
theorem format_negative_max_depth_witness :
    ((-2 : Int) < -1) ∧
    formatPageBlocks (FBlock.toPyL [FBlock.mk "a" [FBlock.mk "b" []]]) (-2)
      = Except.ok ["- a"] :=
  ⟨by decide,
    (format_negative_max_depth [FBlock.mk "a" [FBlock.mk "b" []]] (-2) (by decide)).trans
      rfl⟩

/-- C9: when `get_page_content` receives a truthy page result whose
`blocks` entry is the empty list (text format), the returned text is
exactly the single line `"-"`. -/
theorem get_page_empty_blocks_dash :
    ∀ (pageName : String) (d : List (String × PyVal)) (m : Int), d ≠ [] →
      dictGet d "blocks" (PyVal.list []) = PyVal.list [] →
      runToolGetPageText pageName (PyVal.dict d) m = Except.ok "-" := by
  intro nm d m hne hb
  have ht : truthy (PyVal.dict d) = true := by
    cases d with
    | nil => exact absurd rfl hne
    | cons p ps => rfl
  simp only [runToolGetPageText, ht, if_true]
  simp [hb, truthy]

/-- Witness for C9: a page result with a name but an empty blocks list
prints as `"-"`. -/
theorem get_page_empty_blocks_dash_witness :
    ([("name", PyVal.str "P")] : List (String × PyVal)) ≠ [] ∧
    dictGet [("name", PyVal.str "P")] "blocks" (PyVal.list []) = PyVal.list [] ∧
    runToolGetPageText "P" (PyVal.dict [("name", PyVal.str "P")]) (-1)
      = Except.ok "-" :=
  ⟨by simp, rfl, get_page_empty_blocks_dash "P" _ (-1) (by simp) rfl⟩

/-- C10: calling `update_page`'s run_tool with a page name but empty
content and empty properties returns the error text (which contains the
message "Either 'content' or 'properties' must be provided", as the middle
conjunct exhibits) and never reaches the `update_page_with_blocks` API
call, so no remote state is touched. -/
theorem update_page_requires_content_or_properties :
    ∀ (pageName mode : String),
      updatePageRunTool pageName "" mode []
        = UpdateOutcome.errorText
            "Error: Either 'content' or 'properties' must be provided for update" ∧
      ("Error: Either 'content' or 'properties' must be provided for update" : String)
        = "Error: " ++ "Either 'content' or 'properties' must be provided"
            ++ " for update" ∧
      ∀ (t : String) (bl : List (String × Nat))
        (pr : Option (List (String × PropVal))) (md : String),
        updatePageRunTool pageName "" mode [] ≠ UpdateOutcome.apiCall t bl pr md := by
  intro pageName mode
  refine ⟨rfl, rfl, ?_⟩
  intro t bl pr md h
  simp [updatePageRunTool] at h

/-- Witness for C10: the concrete call with page name `"Page"` and mode
`"append"` returns the error text. -/
theorem update_page_requires_content_or_properties_witness :
    updatePageRunTool "Page" "" "append" []
      = UpdateOutcome.errorText
          "Error: Either 'content' or 'properties' must be provided for update" :=
  (update_page_requires_content_or_properties "Page" "append").1

end McpLogseq
